import Mathlib

/-!
Shallow embedding of `src/replicon_core/replication_rules.rs` from
`bevy_replicon`: the replication rule registry, the registration API
(`replicate`, `replicate_mapped`, `replicate_with`), and the default and
entity-mapped component codecs built on bincode's `DefaultOptions`
(varint) encoding.

Component types are modelled by natural-number labels; the host ECS
world's dynamic `ComponentId` allocation (`World::init_component`) is
modelled by a lookup table plus a fresh-id counter.  Function pointers
stored in the registry are modelled symbolically (so that pointer
identity is observable), while the actual codec functions are modelled
executably over a universe of struct-like component values.
-/

namespace RepliconRules

/-- Labels of the Rust types that get a `ComponentId` in this module:
a replicated component type `C`, its exclusion marker `Ignored<C>`,
and the umbrella `Replication` marker. -/
inductive TypeLabel where
  | comp (c : Nat)
  | ignored (c : Nat)
  | replication
deriving DecidableEq

/-- The component-id registry of the bevy `World`: a map from type to
`ComponentId` plus the next fresh id.  `init_component` returns the
existing id or allocates the next one. -/
structure Components where
  indices : TypeLabel → Option Nat
  next : Nat

/-- Model of `World::init_component::<T>()`: returns the `ComponentId`
already assigned to `T`, or assigns the next fresh one. -/
def init_component (w : Components) (t : TypeLabel) : Nat × Components :=
  match w.indices t with
  | some id => (id, w)
  | none =>
    (w.next,
     { indices := fun t' => if t' = t then some w.next else w.indices t'
       next := w.next + 1 })

/-- Symbolic serialize function pointers (`SerializeFn`): the default
`serialize_component::<C>` or a host-supplied custom function. -/
inductive SerializeFn where
  | serialize_component (c : Nat)
  | custom (k : Nat)
deriving DecidableEq

/-- Symbolic deserialize function pointers (`DeserializeFn`):
`deserialize_component::<C>`, `deserialize_mapped_component::<C>`, or a
host-supplied custom function. -/
inductive DeserializeFn where
  | deserialize_component (c : Nat)
  | deserialize_mapped_component (c : Nat)
  | custom (k : Nat)
deriving DecidableEq

/-- Symbolic remove function pointers (`fn(&mut EntityMut)`); the
registration primitive always stores `remove_component::<C>`. -/
inductive RemoveFn where
  | remove_component (c : Nat)
deriving DecidableEq

/-- Model of `ReplicationInfo`: the per-type record stored in the registry. -/
structure ReplicationInfo where
  ignored_id : Nat
  serialize : SerializeFn
  deserialize : DeserializeFn
  remove : RemoveFn
deriving DecidableEq

/-- Model of the `ReplicationRules` resource: `ids` maps `ComponentId`s to
`ReplicationId`s (a `HashMap`, modelled as a function so that each key
has at most one value and insertion overwrites), `info` is the
append-only record vector, `marker_id` the id of `Replication`. -/
structure ReplicationRules where
  ids : Nat → Option Nat
  info : List ReplicationInfo
  marker_id : Nat

/-- Model of `ReplicationRules::get_marker_id`. -/
def ReplicationRules.get_marker_id (r : ReplicationRules) : Nat :=
  r.marker_id

/-- Model of `ReplicationRules::get_info`: the source performs an unchecked index
`info.get_unchecked(replication_id.0)`; the out-of-range branch (UB in
Rust) is modelled as `none`. -/
def ReplicationRules.get_info (r : ReplicationRules) (replication_id : Nat) :
    Option ReplicationInfo :=
  r.info[replication_id]?

/-- Model of `ReplicationRules::ignored_id`. -/
def ReplicationRules.ignored_id_of (r : ReplicationRules) (component_id : Nat) :
    Option Nat :=
  (r.ids component_id).bind fun replication_id =>
    (r.get_info replication_id).map ReplicationInfo.ignored_id

/-- The `App`: the bevy world's component registry plus the
`ReplicationRules` resource. -/
structure App where
  components : Components
  rules : ReplicationRules

/-- Model of `AppReplicationExt::replicate_with`: the underlying registration
primitive.  Initializes `C` and `Ignored<C>` in the world, pushes a new
record, and maps the component id to the new record's index. -/
def replicate_with (c : Nat) (serialize : SerializeFn)
    (deserialize : DeserializeFn) (app : App) : App :=
  let p1 := init_component app.components (.comp c)
  let component_id := p1.1
  let p2 := init_component p1.2 (.ignored c)
  let ignored_id := p2.1
  let replicated_component : ReplicationInfo :=
    { ignored_id := ignored_id
      serialize := serialize
      deserialize := deserialize
      remove := .remove_component c }
  let info' := app.rules.info ++ [replicated_component]
  let replication_id := info'.length - 1
  { components := p2.2
    rules :=
      { ids := fun cid =>
          if cid = component_id then some replication_id else app.rules.ids cid
        info := info'
        marker_id := app.rules.marker_id } }

/-- Model of `AppReplicationExt::replicate`: delegates to `replicate_with` with
the default codec. -/
def replicate (c : Nat) (app : App) : App :=
  replicate_with c (.serialize_component c) (.deserialize_component c) app

/-- Model of `AppReplicationExt::replicate_mapped`: delegates to `replicate_with`
with the default serialize and the entity-mapped deserialize. -/
def replicate_mapped (c : Nat) (app : App) : App :=
  replicate_with c (.serialize_component c) (.deserialize_mapped_component c) app

/-- Model of `FromWorld for ReplicationRules` on an empty world: empty map and
vector, `marker_id` from initializing the `Replication` component. -/
def freshApp : App :=
  let p := init_component { indices := fun _ => none, next := 0 } .replication
  { components := p.2
    rules := { ids := fun _ => none, info := [], marker_id := p.1 } }

/-- One call to the registration API, eliding the Rust type parameter
into the label of the component it registers. -/
inductive RegCall where
  | replicateCall (c : Nat)
  | replicateMappedCall (c : Nat)
  | replicateWithCall (c : Nat) (s : SerializeFn) (d : DeserializeFn)

/-- The component label a registration call is for. -/
def RegCall.comp : RegCall → Nat
  | .replicateCall c => c
  | .replicateMappedCall c => c
  | .replicateWithCall c _ _ => c

/-- Dispatch one registration call on the app. -/
def applyCall (app : App) : RegCall → App
  | .replicateCall c => replicate c app
  | .replicateMappedCall c => replicate_mapped c app
  | .replicateWithCall c s d => replicate_with c s d app

/-- Run a sequence of registration calls left to right. -/
def applyCalls (app : App) (rs : List RegCall) : App :=
  rs.foldl applyCall app

/-! ### The codec layer

The default codecs call bincode's `DefaultOptions` (varint,
little-endian) encoding through serde.  We model component values as
structs whose fields are u64 integers, booleans, or entity references
(bevy serializes an `Entity` by its u64 bit representation), serialized
field by field in declaration order, which is serde's encoding of a
struct. -/

/-- The serde-visible field types of a modelled component struct. -/
inductive FieldTy where
  | u64
  | boolTy
  | entity
deriving DecidableEq

/-- A field value.  `u64 n` and `entity e` model 64-bit payloads, so a
well-typed value carries `n < 2^64`. -/
inductive FieldVal where
  | u64 (n : Nat)
  | boolVal (b : Bool)
  | entity (e : Nat)
deriving DecidableEq

/-- Well-typedness of one field value at one field type. -/
def FieldVal.hasTy : FieldVal → FieldTy → Bool
  | .u64 n, .u64 => n < 2 ^ 64
  | .boolVal _, .boolTy => true
  | .entity e, .entity => e < 2 ^ 64
  | _, _ => false

/-- A component value matches the schema of its Rust type when the
fields line up one to one, each well typed. -/
def matchesSchema : List FieldVal → List FieldTy → Bool
  | [], [] => true
  | v :: vs, t :: ts => v.hasTy t && matchesSchema vs ts
  | _, _ => false

/-- A Rust component type `C`, as the codec sees it: an identity (the
label under which it lives on an entity) and its serde field schema. -/
structure CompType where
  label : Nat
  schema : List FieldTy

/-- Recompose a little-endian byte list. -/
def fromLEBytes : List Nat → Nat
  | [] => 0
  | b :: bs => b + 256 * fromLEBytes bs

/-- bincode `DefaultOptions` varint encoding of an unsigned 64-bit
integer: a single byte below 251, otherwise a width marker (251 for
u16, 252 for u32, 253 for u64) followed by the value's little-endian
bytes at that width. -/
def encodeU64 (n : Nat) : List Nat :=
  if n < 251 then [n]
  else if n < 2 ^ 16 then [251, n % 256, n / 2 ^ 8 % 256]
  else if n < 2 ^ 32 then
    [252, n % 256, n / 2 ^ 8 % 256, n / 2 ^ 16 % 256, n / 2 ^ 24 % 256]
  else
    [253, n % 256, n / 2 ^ 8 % 256, n / 2 ^ 16 % 256, n / 2 ^ 24 % 256,
     n / 2 ^ 32 % 256, n / 2 ^ 40 % 256, n / 2 ^ 48 % 256, n / 2 ^ 56 % 256]

/-- bincode's encoding of a bool: one byte, 1 for true, 0 for false. -/
def encodeBool (b : Bool) : List Nat :=
  [if b then 1 else 0]

/-- Decoding errors: the cursor ran out of bytes, or the bytes do not
match the expected shape (bincode's `ErrorKind::Io(UnexpectedEof)` and
`InvalidBoolEncoding`/`InvalidTagEncoding` style failures). -/
inductive DecodeError where
  | unexpectedEof
  | invalidEncoding
deriving DecidableEq

/-- Decode a varint u64 from a byte cursor, returning the value and the
remaining bytes.  A width marker for u128 (254) is not a valid u64. -/
def decodeU64 : List Nat → Except DecodeError (Nat × List Nat)
  | [] => .error .unexpectedEof
  | b :: bs =>
    if b < 251 then .ok (b, bs)
    else if b = 251 then
      match bs with
      | b0 :: b1 :: rest => .ok (fromLEBytes [b0, b1], rest)
      | _ => .error .unexpectedEof
    else if b = 252 then
      match bs with
      | b0 :: b1 :: b2 :: b3 :: rest => .ok (fromLEBytes [b0, b1, b2, b3], rest)
      | _ => .error .unexpectedEof
    else if b = 253 then
      match bs with
      | b0 :: b1 :: b2 :: b3 :: b4 :: b5 :: b6 :: b7 :: rest =>
        .ok (fromLEBytes [b0, b1, b2, b3, b4, b5, b6, b7], rest)
      | _ => .error .unexpectedEof
    else .error .invalidEncoding

/-- Decode a bool: byte 0 is false, 1 is true, anything else is
`InvalidBoolEncoding`. -/
def decodeBool : List Nat → Except DecodeError (Bool × List Nat)
  | [] => .error .unexpectedEof
  | b :: bs =>
    if b = 0 then .ok (false, bs)
    else if b = 1 then .ok (true, bs)
    else .error .invalidEncoding

/-- Serialize one field. -/
def encodeField : FieldVal → List Nat
  | .u64 n => encodeU64 n
  | .boolVal b => encodeBool b
  | .entity e => encodeU64 e

/-- Decode one field at the given field type. -/
def decodeField : FieldTy → List Nat → Except DecodeError (FieldVal × List Nat)
  | .u64, bs =>
    match decodeU64 bs with
    | .error e => .error e
    | .ok p => .ok (.u64 p.1, p.2)
  | .boolTy, bs =>
    match decodeBool bs with
    | .error e => .error e
    | .ok p => .ok (.boolVal p.1, p.2)
  | .entity, bs =>
    match decodeU64 bs with
    | .error e => .error e
    | .ok p => .ok (.entity p.1, p.2)

/-- Serialize a component value: its fields in declaration order. -/
def encodeComp (vs : List FieldVal) : List Nat :=
  (vs.map encodeField).flatten

/-- Decode a component value at the given schema: its fields in
declaration order. -/
def decodeComp : List FieldTy → List Nat → Except DecodeError (List FieldVal × List Nat)
  | [], bs => .ok ([], bs)
  | t :: ts, bs =>
    match decodeField t bs with
    | .error e => .error e
    | .ok p =>
      match decodeComp ts p.2 with
      | .error e => .error e
      | .ok q => .ok (p.1 :: q.1, q.2)

/-- The component store of one entity (`EntityMut`): for each component
type label, the component value currently on the entity, if any. -/
def EntityState := Nat → Option (List FieldVal)

/-- Model of `EntityMut::insert`: installs the value, replacing any existing
component of that type. -/
def insertComp (label : Nat) (v : List FieldVal) (es : EntityState) : EntityState :=
  fun l => if l = label then some v else es l

/-- Default serialization function `serialize_component::<C>`: encodes
the component value into the output cursor with bincode
`DefaultOptions` (infallible on this value universe). -/
def serialize_component (component : List FieldVal) (cursor : List Nat) : List Nat :=
  cursor ++ encodeComp component

/-- Modelled from the spec: the `MapNetworkEntities` implementation of a
component type (derived host code, not part of this module).  Per §4.4
the type visits each embedded entity reference in declared field order
and replaces it with its mapped counterpart; non-entity fields are
untouched. -/
def map_entities (mapper : Nat → Nat) (vs : List FieldVal) : List FieldVal :=
  vs.map fun v =>
    match v with
    | .entity e => .entity (mapper e)
    | other => other

/-- True when the value embeds at least one entity reference. -/
def hasEntityRef (vs : List FieldVal) : Bool :=
  vs.any fun v =>
    match v with
    | .entity _ => true
    | _ => false

/-- Default deserialization function `deserialize_component::<C>`:
decodes a value of `C` from the cursor and inserts it on the entity; on
a decode failure the `?` operator returns the error before the entity
is touched.  The entity-map parameter is received but unused (it is
`_entity_map` in the source).  Returns the entity state together with
the result (`Ok` carries the remaining cursor). -/
def deserialize_component (c : CompType) (entity : EntityState)
    (_entity_map : Nat → Nat) (cursor : List Nat) :
    EntityState × Except DecodeError (List Nat) :=
  match decodeComp c.schema cursor with
  | .error e => (entity, .error e)
  | .ok p => (insertComp c.label p.1 entity, .ok p.2)

/-- Entity-mapped deserialization `deserialize_mapped_component::<C>`:
decodes the raw value, maps its embedded entity references through the
mapping capability (`ClientMapper` over the `NetworkEntityMap`, modelled
from the spec as a pure lookup `Nat → Nat` since `client.rs` is outside
this module), and only then inserts the component. -/
def deserialize_mapped_component (c : CompType) (entity : EntityState)
    (entityMap : Nat → Nat) (cursor : List Nat) :
    EntityState × Except DecodeError (List Nat) :=
  match decodeComp c.schema cursor with
  | .error e => (entity, .error e)
  | .ok p => (insertComp c.label (map_entities entityMap p.1) entity, .ok p.2)

/-- Model of `remove_component::<C>`: removes the component of type `C` from the
entity (`EntityMut::remove`, a no-op when absent). -/
def remove_component (c : Nat) (entity : EntityState) : EntityState :=
  fun l => if l = c then none else entity l

/-- Invariant of the registry after registering exactly the component
types in `procd`, in that order, starting from a fresh app: the record
vector has one entry per processed type, all component ids are below
the allocator's watermark, `comp`/`ignored` labels are only initialized
for processed types, and the type processed k-th resolves through
`indices` and `ids` to ordinal k. -/
def RegInv (procd : List Nat) (app : App) : Prop :=
  app.rules.info.length = procd.length ∧
  (∀ t i, app.components.indices t = some i → i < app.components.next) ∧
  (∀ c, (app.components.indices (.comp c)).isSome = true → c ∈ procd) ∧
  (∀ c, (app.components.indices (.ignored c)).isSome = true → c ∈ procd) ∧
  (∀ k x, procd[k]? = some x →
    ∃ cid, app.components.indices (.comp x) = some cid ∧
      app.rules.ids cid = some k)

/-! ### Codec lemmas -/

theorem decodeU64_encodeU64 (n : Nat) (hn : n < 2 ^ 64) (rest : List Nat) :
    decodeU64 (encodeU64 n ++ rest) = .ok (n, rest) := by
  unfold encodeU64
  by_cases h1 : n < 251
  · simp [h1, decodeU64]
  · by_cases h2 : n < 2 ^ 16
    · simp only [if_neg h1, if_pos h2, List.cons_append, List.nil_append]
      simp only [decodeU64, fromLEBytes]
      norm_num
      omega
    · by_cases h3 : n < 2 ^ 32
      · simp only [if_neg h1, if_neg h2, if_pos h3, List.cons_append, List.nil_append]
        simp only [decodeU64, fromLEBytes]
        norm_num
        omega
      · simp only [if_neg h1, if_neg h2, if_neg h3, List.cons_append, List.nil_append]
        simp only [decodeU64, fromLEBytes]
        norm_num
        omega

theorem decodeBool_encodeBool (b : Bool) (rest : List Nat) :
    decodeBool (encodeBool b ++ rest) = .ok (b, rest) := by
  cases b <;> simp [encodeBool, decodeBool]

theorem decodeField_encodeField (v : FieldVal) (t : FieldTy)
    (hv : v.hasTy t = true) (rest : List Nat) :
    decodeField t (encodeField v ++ rest) = .ok (v, rest) := by
  cases v <;> cases t <;> simp_all [FieldVal.hasTy, encodeField, decodeField,
    decodeU64_encodeU64, decodeBool_encodeBool]

theorem decodeComp_encodeComp (vs : List FieldVal) (ts : List FieldTy)
    (hv : matchesSchema vs ts = true) (rest : List Nat) :
    decodeComp ts (encodeComp vs ++ rest) = .ok (vs, rest) := by
  induction vs generalizing ts with
  | nil =>
    cases ts with
    | nil => simp [encodeComp, decodeComp]
    | cons t ts => simp [matchesSchema] at hv
  | cons v vs ih =>
    cases ts with
    | nil => simp [matchesSchema] at hv
    | cons t ts =>
      simp only [matchesSchema, Bool.and_eq_true] at hv
      simp only [encodeComp, List.map_cons, List.flatten_cons, List.append_assoc]
      have hfield := decodeField_encodeField v t hv.1 ((vs.map encodeField).flatten ++ rest)
      simp only [decodeComp, hfield]
      have hrec := ih ts hv.2
      simp only [encodeComp] at hrec
      simp [hrec]

theorem decodeU64_extend (t : List Nat) {bs : List Nat} {p : Nat × List Nat}
    (h : decodeU64 bs = .ok p) : decodeU64 (bs ++ t) = .ok (p.1, p.2 ++ t) := by
  obtain ⟨n, r⟩ := p
  rcases bs with _ | ⟨b, bs⟩
  · simp [decodeU64] at h
  · simp only [decodeU64, List.cons_append] at h ⊢
    split_ifs at h ⊢ with h1 h2 h3 h4
    · simp only [Except.ok.injEq, Prod.mk.injEq] at h
      obtain ⟨rfl, rfl⟩ := h
      rfl
    · rcases bs with _ | ⟨b0, _ | ⟨b1, bs⟩⟩ <;> simp_all
    · rcases bs with _ | ⟨b0, _ | ⟨b1, _ | ⟨b2, _ | ⟨b3, bs⟩⟩⟩⟩ <;> simp_all
    · rcases bs with
        _ | ⟨b0, _ | ⟨b1, _ | ⟨b2, _ | ⟨b3, _ | ⟨b4, _ | ⟨b5, _ | ⟨b6, _ | ⟨b7, bs⟩⟩⟩⟩⟩⟩⟩⟩ <;>
        simp_all

theorem decodeBool_extend (t : List Nat) {bs : List Nat} {p : Bool × List Nat}
    (h : decodeBool bs = .ok p) : decodeBool (bs ++ t) = .ok (p.1, p.2 ++ t) := by
  obtain ⟨b', r⟩ := p
  rcases bs with _ | ⟨b, bs⟩
  · simp [decodeBool] at h
  · simp only [decodeBool, List.cons_append] at h ⊢
    split_ifs at h ⊢ <;> simp_all

theorem decodeField_extend (t : List Nat) {ft : FieldTy} {bs : List Nat}
    {p : FieldVal × List Nat} (h : decodeField ft bs = .ok p) :
    decodeField ft (bs ++ t) = .ok (p.1, p.2 ++ t) := by
  cases ft <;> simp only [decodeField] at h ⊢
  case u64 =>
    cases hu : decodeU64 bs with
    | error e => rw [hu] at h; simp at h
    | ok q =>
      rw [hu] at h
      rw [decodeU64_extend t hu]
      simp only [Except.ok.injEq] at h ⊢
      rw [← h]
  case boolTy =>
    cases hu : decodeBool bs with
    | error e => rw [hu] at h; simp at h
    | ok q =>
      rw [hu] at h
      rw [decodeBool_extend t hu]
      simp only [Except.ok.injEq] at h ⊢
      rw [← h]
  case entity =>
    cases hu : decodeU64 bs with
    | error e => rw [hu] at h; simp at h
    | ok q =>
      rw [hu] at h
      rw [decodeU64_extend t hu]
      simp only [Except.ok.injEq] at h ⊢
      rw [← h]

theorem decodeComp_extend (t : List Nat) {ts : List FieldTy} {bs : List Nat}
    {p : List FieldVal × List Nat} (h : decodeComp ts bs = .ok p) :
    decodeComp ts (bs ++ t) = .ok (p.1, p.2 ++ t) := by
  induction ts generalizing bs p with
  | nil =>
    simp only [decodeComp, Except.ok.injEq] at h ⊢
    rw [← h]
  | cons ft ts ih =>
    simp only [decodeComp] at h ⊢
    cases hf : decodeField ft bs with
    | error e => rw [hf] at h; simp at h
    | ok q =>
      rw [hf] at h
      rw [decodeField_extend t hf]
      dsimp only at h ⊢
      cases hr : decodeComp ts q.2 with
      | error e => rw [hr] at h; simp at h
      | ok q' =>
        rw [hr] at h
        rw [ih hr]
        simp only [Except.ok.injEq] at h ⊢
        rw [← h]

theorem decodeComp_take_not_ok (vs : List FieldVal) (ts : List FieldTy) (k : Nat)
    (hv : matchesSchema vs ts = true) (hk : k < (encodeComp vs).length)
    (p : List FieldVal × List Nat) :
    decodeComp ts (List.take k (encodeComp vs)) ≠ .ok p := by
  intro hok
  have hext := decodeComp_extend (List.drop k (encodeComp vs)) hok
  rw [List.take_append_drop] at hext
  have hrt := decodeComp_encodeComp vs ts hv []
  rw [List.append_nil] at hrt
  rw [hrt] at hext
  simp only [Except.ok.injEq, Prod.mk.injEq] at hext
  have hnil : p.2 ++ List.drop k (encodeComp vs) = [] := hext.2.symm
  have hdrop : List.drop k (encodeComp vs) = [] := (List.append_eq_nil.mp hnil).2
  have := congrArg List.length hdrop
  simp [List.length_drop] at this
  omega

/-! ### Registry lemmas -/

theorem init_component_hit (w : Components) (t : TypeLabel) (id : Nat)
    (h : w.indices t = some id) : init_component w t = (id, w) := by
  simp [init_component, h]

theorem init_component_fresh (w : Components) (t : TypeLabel)
    (h : w.indices t = none) :
    init_component w t =
      (w.next,
       { indices := fun t' => if t' = t then some w.next else w.indices t'
         next := w.next + 1 }) := by
  simp [init_component, h]

theorem replicate_with_info (c : Nat) (s : SerializeFn) (d : DeserializeFn)
    (app : App) :
    (replicate_with c s d app).rules.info =
      app.rules.info ++
        [{ ignored_id := (init_component (init_component app.components (.comp c)).2 (.ignored c)).1
           serialize := s
           deserialize := d
           remove := .remove_component c }] :=
  rfl

theorem replicate_with_marker (c : Nat) (s : SerializeFn) (d : DeserializeFn)
    (app : App) :
    (replicate_with c s d app).rules.marker_id = app.rules.marker_id :=
  rfl

theorem replicate_with_components (c : Nat) (s : SerializeFn) (d : DeserializeFn)
    (app : App) :
    (replicate_with c s d app).components =
      (init_component (init_component app.components (.comp c)).2 (.ignored c)).2 :=
  rfl

theorem replicate_with_ids (c : Nat) (s : SerializeFn) (d : DeserializeFn)
    (app : App) (cid : Nat) :
    (replicate_with c s d app).rules.ids cid =
      if cid = (init_component app.components (.comp c)).1 then
        some app.rules.info.length
      else app.rules.ids cid := by
  simp [replicate_with]

/-- Every registration call is `replicate_with` for the call's component
type with some pair of codec function pointers. -/
theorem applyCall_eq_replicate_with (app : App) (r : RegCall) :
    ∃ s d, applyCall app r = replicate_with r.comp s d app := by
  cases r with
  | replicateCall c => exact ⟨_, _, rfl⟩
  | replicateMappedCall c => exact ⟨_, _, rfl⟩
  | replicateWithCall c s d => exact ⟨s, d, rfl⟩

theorem RegInv_fresh : RegInv [] freshApp := by
  refine ⟨rfl, ?_, ?_, ?_, ?_⟩
  · intro t i h
    simp only [freshApp, init_component] at h ⊢
    split at h <;> simp_all
  · intro c h
    simp [freshApp, init_component] at h
  · intro c h
    simp [freshApp, init_component] at h
  · intro k x h
    simp at h

theorem RegInv_step (procd : List Nat) (app : App) (c : Nat) (s : SerializeFn)
    (d : DeserializeFn) (hinv : RegInv procd app) (hc : c ∉ procd) :
    RegInv (procd ++ [c]) (replicate_with c s d app) := by
  obtain ⟨hlen, hbound, hcomp, hignored, hord⟩ := hinv
  have hfresh1 : app.components.indices (.comp c) = none := by
    cases h : app.components.indices (.comp c) with
    | none => rfl
    | some i => exact absurd (hcomp c (by simp [h])) hc
  have hfresh2 : app.components.indices (.ignored c) = none := by
    cases h : app.components.indices (.ignored c) with
    | none => rfl
    | some i => exact absurd (hignored c (by simp [h])) hc
  have hinit1 := init_component_fresh app.components (.comp c) hfresh1
  have hstep2 :
      (init_component app.components (.comp c)).2.indices (.ignored c) = none := by
    rw [hinit1]
    simp [hfresh2]
  have hinit2 := init_component_fresh _ (.ignored c) hstep2
  have hindices : ∀ t,
      (replicate_with c s d app).components.indices t =
        if t = .ignored c then some (app.components.next + 1)
        else if t = .comp c then some app.components.next
        else app.components.indices t := by
    intro t
    rw [replicate_with_components, hinit2]
    simp only [hinit1]
  have hnext :
      (replicate_with c s d app).components.next = app.components.next + 2 := by
    rw [replicate_with_components, hinit2]
    simp [hinit1]
  have hids : ∀ cid,
      (replicate_with c s d app).rules.ids cid =
        if cid = app.components.next then some app.rules.info.length
        else app.rules.ids cid := by
    intro cid
    rw [replicate_with_ids, hinit1]
  refine ⟨?_, ?_, ?_, ?_, ?_⟩
  · rw [replicate_with_info]
    simp [hlen]
  · intro t i h
    rw [hindices t] at h
    rw [hnext]
    split at h
    · simp at h; omega
    · split at h
      · simp at h; omega
      · have := hbound t i h; omega
  · intro x h
    rw [hindices (.comp x)] at h
    split at h
    · simp_all
    · split at h
      · simp_all
      · exact List.mem_append_left _ (hcomp x h)
  · intro x h
    rw [hindices (.ignored x)] at h
    split at h
    · rename_i heq
      simp only [TypeLabel.ignored.injEq] at heq
      subst heq
      simp
    · split at h
      · simp_all
      · exact List.mem_append_left _ (hignored x h)
  · intro k x h
    rcases Nat.lt_or_ge k procd.length with hk | hk
    · rw [List.getElem?_append, if_pos hk] at h
      obtain ⟨cid, hcid, hid⟩ := hord k x h
      have hxmem : x ∈ procd := List.getElem?_mem h
      refine ⟨cid, ?_, ?_⟩
      · rw [hindices (.comp x)]
        have hxc : x ≠ c := fun he => hc (he ▸ hxmem)
        simp [hxc]
        exact hcid
      · rw [hids cid]
        have : cid < app.components.next := hbound _ _ hcid
        simp [Nat.ne_of_lt this]
        exact hid
    · rcases Nat.lt_or_ge k (procd.length + 1) with hk1 | hk1
      · have hkeq : k = procd.length := by omega
        subst hkeq
        have hxc : x = c := by
          rw [List.getElem?_append, if_neg (by omega)] at h
          simp at h
          omega
        subst hxc
        refine ⟨app.components.next, ?_, ?_⟩
        · rw [hindices (.comp x)]
          simp
        · rw [hids]
          simp [hlen]
      · have hnone : (procd ++ [c])[k]? = none := by
          apply List.getElem?_eq_none
          simp
          omega
        rw [hnone] at h
        exact Option.noConfusion h

theorem applyCalls_nil (app : App) : applyCalls app [] = app := rfl

theorem applyCalls_cons (app : App) (r : RegCall) (rs : List RegCall) :
    applyCalls app (r :: rs) = applyCalls (applyCall app r) rs := rfl

theorem RegInv_applyCalls (rs : List RegCall) (procd : List Nat) (app : App)
    (hinv : RegInv procd app)
    (hnd : (procd ++ rs.map RegCall.comp).Nodup) :
    RegInv (procd ++ rs.map RegCall.comp) (applyCalls app rs) := by
  induction rs generalizing app procd with
  | nil => simpa using hinv
  | cons r rs ih =>
    obtain ⟨s, d, heq⟩ := applyCall_eq_replicate_with app r
    have hcnotin : r.comp ∉ procd := by
      intro hmem
      have hdisj := List.disjoint_of_nodup_append hnd
      exact hdisj hmem (by simp)
    have hstep : RegInv (procd ++ [r.comp]) (applyCall app r) := by
      rw [heq]
      exact RegInv_step procd app r.comp s d hinv hcnotin
    have hnd' : ((procd ++ [r.comp]) ++ rs.map RegCall.comp).Nodup := by
      simpa [List.append_assoc] using hnd
    have hres := ih (procd ++ [r.comp]) (applyCall app r) hstep hnd'
    rw [applyCalls_cons]
    simpa [List.append_assoc] using hres

/-- The invariant established by any duplicate-free registration
sequence on a fresh app. -/
theorem RegInv_of_calls (rs : List RegCall)
    (hnd : (rs.map RegCall.comp).Nodup) :
    RegInv (rs.map RegCall.comp) (applyCalls freshApp rs) := by
  have := RegInv_applyCalls rs [] freshApp RegInv_fresh (by simpa using hnd)
  simpa using this

theorem init_component_preserves (w : Components) (t t' : TypeLabel)
    (h : t' ≠ t) : (init_component w t).2.indices t' = w.indices t' := by
  unfold init_component
  cases hw : w.indices t <;> simp [h]

theorem init_component_sets (w : Components) (t : TypeLabel) :
    (init_component w t).2.indices t = some (init_component w t).1 := by
  unfold init_component
  cases hw : w.indices t <;> simp [hw]

theorem applyCall_info_append (app : App) (r : RegCall) :
    ∃ rec, (applyCall app r).rules.info = app.rules.info ++ [rec] := by
  obtain ⟨s, d, heq⟩ := applyCall_eq_replicate_with app r
  exact ⟨_, by rw [heq, replicate_with_info]⟩

theorem applyCalls_info_extends (rs : List RegCall) (app : App) :
    ∃ suffix, (applyCalls app rs).rules.info = app.rules.info ++ suffix := by
  induction rs generalizing app with
  | nil => exact ⟨[], by simp [applyCalls_nil]⟩
  | cons r rs ih =>
    obtain ⟨rec, h1⟩ := applyCall_info_append app r
    obtain ⟨suf, h2⟩ := ih (applyCall app r)
    exact ⟨[rec] ++ suf, by rw [applyCalls_cons, h2, h1, List.append_assoc]⟩

/-! ### Claim theorems -/

/-- Claim C1: for any sequence of N registration calls (`replicate`,
`replicate_mapped`, or `replicate_with`) on a fresh registry over N
distinct component types, the k-th call assigns ordinal k−1
(0-indexed): right after the k-th call the records vector has length k,
and after all N calls it has length N and looking up the ordinal of the
type registered k-th through the `ids` map still returns k−1. -/
theorem registration_assigns_dense_stable_ordinals (rs : List RegCall)
    (hnd : (rs.map RegCall.comp).Nodup) (k : Nat) (hk : k < rs.length) :
    (applyCalls freshApp rs).rules.info.length = rs.length ∧
    (applyCalls freshApp (rs.take (k + 1))).rules.info.length = k + 1 ∧
    (∃ cid,
      (applyCalls freshApp (rs.take (k + 1))).components.indices
          (.comp (rs.get ⟨k, hk⟩).comp) = some cid ∧
      (applyCalls freshApp (rs.take (k + 1))).rules.ids cid = some k) ∧
    ∃ cid,
      (applyCalls freshApp rs).components.indices
          (.comp (rs.get ⟨k, hk⟩).comp) = some cid ∧
      (applyCalls freshApp rs).rules.ids cid = some k := by
  have hndt : ((rs.take (k + 1)).map RegCall.comp).Nodup := by
    rw [List.map_take]
    exact ((rs.map RegCall.comp).take_sublist (k + 1)).nodup hnd
  have hfull := RegInv_of_calls rs hnd
  have htake := RegInv_of_calls (rs.take (k + 1)) hndt
  obtain ⟨hlen1, _, _, _, hord1⟩ := hfull
  obtain ⟨hlen2, _, _, _, hord2⟩ := htake
  have hgetfull : (rs.map RegCall.comp)[k]? = some ((rs.get ⟨k, hk⟩).comp) := by
    rw [List.getElem?_map, List.getElem?_eq_getElem hk]
    simp [List.get_eq_getElem]
  have hgettake :
      ((rs.take (k + 1)).map RegCall.comp)[k]? =
        some ((rs.get ⟨k, hk⟩).comp) := by
    rw [List.map_take, List.getElem?_take, if_pos (by omega)]
    exact hgetfull
  refine ⟨by simpa using hlen1, ?_, ?_, ?_⟩
  · rw [hlen2]
    simp only [List.length_map, List.length_take]
    omega
  · exact hord2 k _ hgettake
  · exact hord1 k _ hgetfull

/-- Witness for C1 at a concrete two-call sequence. -/
theorem registration_assigns_dense_stable_ordinals_witness :
    ([RegCall.replicateCall 3, RegCall.replicateMappedCall 4].map
        RegCall.comp).Nodup ∧
    1 < [RegCall.replicateCall 3, RegCall.replicateMappedCall 4].length ∧
    ((applyCalls freshApp
        [RegCall.replicateCall 3, RegCall.replicateMappedCall 4]).rules.info.length = 2 ∧
      ∃ cid,
        (applyCalls freshApp
            [RegCall.replicateCall 3, RegCall.replicateMappedCall 4]).components.indices
          (.comp 4) = some cid ∧
        (applyCalls freshApp
            [RegCall.replicateCall 3, RegCall.replicateMappedCall 4]).rules.ids cid =
          some 1) := by
  refine ⟨by decide, by decide, ?_⟩
  have h := registration_assigns_dense_stable_ordinals
    [RegCall.replicateCall 3, RegCall.replicateMappedCall 4] (by decide) 1 (by decide)
  exact ⟨h.1, h.2.2.2⟩

/-- Claim C2 counterexample: registering the same component type twice
is not prevented from appending a second record — after two `replicate`
calls for type 7 on a fresh registry the records vector has two
entries, both belonging to type 7 (same stored remove pointer). -/
theorem duplicate_registration_appends_second_record :
    (replicate 7 (replicate 7 freshApp)).rules.info.length = 2 ∧
    (replicate 7 (replicate 7 freshApp)).rules.info.map ReplicationInfo.remove =
      [.remove_component 7, .remove_component 7] := by
  exact ⟨rfl, rfl⟩

/-- Claim C2 (amended): a repeated registration of the same type is not
rejected: every `replicate_with` call appends one record, and the
`HashMap` insert makes the `ids` map associate the type's component id
with exactly the newly assigned (newest) ordinal — so each type has at
most one ordinal in the map at any time, but re-registration leaves a
stale extra record behind. -/
theorem reregistration_keeps_single_newest_ordinal (c : Nat)
    (s : SerializeFn) (d : DeserializeFn) (app : App) :
    ∃ cid,
      (replicate_with c s d app).components.indices (.comp c) = some cid ∧
      (replicate_with c s d app).rules.ids cid = some app.rules.info.length ∧
      (replicate_with c s d app).rules.info.length =
        app.rules.info.length + 1 := by
  refine ⟨(init_component app.components (.comp c)).1, ?_, ?_, ?_⟩
  · rw [replicate_with_components,
      init_component_preserves _ _ _ (by simp)]
    exact init_component_sets app.components (.comp c)
  · rw [replicate_with_ids]
    simp
  · rw [replicate_with_info]
    simp

/-- Claim C5: an ordinal produced by a registration call stays in
bounds for the lifetime of the registry, and `get_info` on it returns
exactly the record stored by that call (same serialize/deserialize
pointers and remove pointer), even after any further registrations. -/
theorem get_info_returns_registered_record (app : App) (c : Nat)
    (s : SerializeFn) (d : DeserializeFn) (rs : List RegCall) :
    app.rules.info.length < (replicate_with c s d app).rules.info.length ∧
    ∃ rec : ReplicationInfo,
      rec.serialize = s ∧ rec.deserialize = d ∧
      rec.remove = .remove_component c ∧
      (replicate_with c s d app).rules.get_info app.rules.info.length =
        some rec ∧
      (applyCalls (replicate_with c s d app) rs).rules.get_info
        app.rules.info.length = some rec := by
  constructor
  · rw [replicate_with_info]
    simp
  · refine ⟨ReplicationInfo.mk
        (init_component (init_component app.components (.comp c)).2
          (.ignored c)).1 s d (.remove_component c), rfl, rfl, rfl, ?_, ?_⟩
    · rw [ReplicationRules.get_info, replicate_with_info]
      rw [List.getElem?_append, if_neg (by omega)]
      simp
    · obtain ⟨suffix, hsuf⟩ :=
        applyCalls_info_extends rs (replicate_with c s d app)
      rw [ReplicationRules.get_info, hsuf, replicate_with_info,
        List.append_assoc]
      rw [List.getElem?_append, if_neg (by omega)]
      simp

/-- Claim C7: the three registration entry points are façades over
`replicate_with`: `replicate` equals `replicate_with` at the default
codec pair, `replicate_mapped` equals it at the default serialize and
mapped deserialize, and whatever codec pair is passed, the appended
record carries the same remove pointer and the same ignored-marker id
in all three cases. -/
theorem replicate_entry_points_are_facades (c : Nat) (app : App)
    (s : SerializeFn) (d : DeserializeFn) :
    replicate c app =
      replicate_with c (.serialize_component c) (.deserialize_component c) app ∧
    replicate_mapped c app =
      replicate_with c (.serialize_component c)
        (.deserialize_mapped_component c) app ∧
    ((replicate_with c s d app).rules.info.getLast?).map
        ReplicationInfo.remove = some (.remove_component c) ∧
    ((replicate_with c s d app).rules.info.getLast?).map
        ReplicationInfo.ignored_id =
      ((replicate c app).rules.info.getLast?).map ReplicationInfo.ignored_id ∧
    ((replicate_with c s d app).rules.info.getLast?).map
        ReplicationInfo.ignored_id =
      ((replicate_mapped c app).rules.info.getLast?).map
        ReplicationInfo.ignored_id := by
  refine ⟨rfl, rfl, ?_, ?_, ?_⟩ <;>
    simp [replicate, replicate_mapped, replicate_with_info,
      List.getLast?_concat]

/-- Claim C9: registration only appends: a `replicate_with` call for a
type not yet known to the world extends the records vector at the end
by one record, keeps every previously established component-id-to-
ordinal association, and leaves `marker_id` untouched. -/
theorem registration_preserves_prior_state (app : App) (c : Nat)
    (s : SerializeFn) (d : DeserializeFn)
    (hdom : ∀ i, (app.rules.ids i).isSome = true → i < app.components.next)
    (hnew : app.components.indices (.comp c) = none) :
    (∃ rec, (replicate_with c s d app).rules.info = app.rules.info ++ [rec]) ∧
    (∀ cid o, app.rules.ids cid = some o →
      (replicate_with c s d app).rules.ids cid = some o) ∧
    (replicate_with c s d app).rules.get_marker_id =
      app.rules.get_marker_id := by
  refine ⟨⟨_, replicate_with_info c s d app⟩, ?_, rfl⟩
  intro cid o ho
  have hlt : cid < app.components.next := hdom cid (by simp [ho])
  rw [replicate_with_ids, init_component_fresh _ _ hnew]
  dsimp only
  rw [if_neg (by omega)]
  exact ho

/-- Witness for C9 at the fresh app and type 0. -/
theorem registration_preserves_prior_state_witness :
    (∀ i, (freshApp.rules.ids i).isSome = true →
      i < freshApp.components.next) ∧
    freshApp.components.indices (.comp 0) = none ∧
    (∃ rec,
      (replicate_with 0 (.custom 0) (.custom 0) freshApp).rules.info =
        freshApp.rules.info ++ [rec]) ∧
    (replicate_with 0 (.custom 0) (.custom 0) freshApp).rules.get_marker_id =
      freshApp.rules.get_marker_id := by
  have h := registration_preserves_prior_state freshApp 0 (.custom 0)
    (.custom 0) (fun i hi => by simp [freshApp] at hi) (by decide)
  exact ⟨fun i hi => by simp [freshApp] at hi, by decide, h.1, h.2.2⟩

theorem map_entities_no_refs (m : Nat → Nat) (vs : List FieldVal)
    (h : hasEntityRef vs = false) : map_entities m vs = vs := by
  induction vs with
  | nil => rfl
  | cons v vs ih =>
    simp only [hasEntityRef, List.any_cons, Bool.or_eq_false_iff] at h
    simp only [map_entities, List.map_cons]
    cases v with
    | u64 n => simp [map_entities] at ih ⊢; exact ih h.2
    | boolVal b => simp [map_entities] at ih ⊢; exact ih h.2
    | entity e => simp at h

/-- Claim C3: round-trip identity of the default codec: for every
registered component type and every well-typed value `v`, running
`deserialize_component` on the bytes produced by `serialize_component`
applied to `v` succeeds and installs on the target entity a value equal
to `v`; the entity-mapped codec does the same whenever the value embeds
no entity references. -/
theorem default_codec_round_trip (c : CompType) (es : EntityState)
    (m : Nat → Nat) (v : List FieldVal)
    (hv : matchesSchema v c.schema = true) :
    deserialize_component c es m (serialize_component v []) =
      (insertComp c.label v es, .ok []) ∧
    insertComp c.label v es c.label = some v ∧
    (hasEntityRef v = false →
      deserialize_mapped_component c es m (serialize_component v []) =
        (insertComp c.label v es, .ok [])) := by
  have hdec : decodeComp c.schema (encodeComp v) = .ok (v, []) := by
    have := decodeComp_encodeComp v c.schema hv []
    simpa using this
  refine ⟨?_, ?_, ?_⟩
  · simp [deserialize_component, serialize_component, hdec]
  · simp [insertComp]
  · intro hne
    have hmap : map_entities m v = v := map_entities_no_refs m v hne
    simp [deserialize_mapped_component, serialize_component, hdec, hmap]

/-- Witness for C3 at a two-field component value. -/
theorem default_codec_round_trip_witness :
    matchesSchema [FieldVal.u64 300, FieldVal.boolVal true]
      (CompType.mk 0 [FieldTy.u64, FieldTy.boolTy]).schema = true ∧
    deserialize_component (CompType.mk 0 [FieldTy.u64, FieldTy.boolTy])
        (fun _ => none) id
        (serialize_component [FieldVal.u64 300, FieldVal.boolVal true] []) =
      (insertComp 0 [FieldVal.u64 300, FieldVal.boolVal true] (fun _ => none),
        .ok []) :=
  ⟨by decide,
   (default_codec_round_trip (CompType.mk 0 [FieldTy.u64, FieldTy.boolTy])
      (fun _ => none) id [FieldVal.u64 300, FieldVal.boolVal true]
      (by decide)).1⟩

/-- Claim C4: for every registered type, the deserialize functions
return a decoding error as a value on malformed input and leave the
target entity unchanged in that case; in particular every strict
truncation of a valid encoding makes both deserialize functions return
an error. -/
theorem deserialize_error_is_value_and_leaves_entity (c : CompType)
    (es : EntityState) (m : Nat → Nat) (cursor : List Nat)
    (v : List FieldVal) (k : Nat)
    (hv : matchesSchema v c.schema = true)
    (hk : k < (encodeComp v).length) :
    ((deserialize_component c es m cursor).2.isOk = false →
      (deserialize_component c es m cursor).1 = es) ∧
    ((deserialize_mapped_component c es m cursor).2.isOk = false →
      (deserialize_mapped_component c es m cursor).1 = es) ∧
    (deserialize_component c es m (List.take k (encodeComp v))).2.isOk =
      false ∧
    (deserialize_mapped_component c es m
      (List.take k (encodeComp v))).2.isOk = false := by
  have hterr := decodeComp_take_not_ok v c.schema k hv hk
  refine ⟨?_, ?_, ?_, ?_⟩
  · intro h
    cases hde : decodeComp c.schema cursor with
    | error e => simp [deserialize_component, hde]
    | ok p => simp [deserialize_component, hde, Except.isOk, Except.toBool] at h
  · intro h
    cases hde : decodeComp c.schema cursor with
    | error e => simp [deserialize_mapped_component, hde]
    | ok p => simp [deserialize_mapped_component, hde, Except.isOk, Except.toBool] at h
  · cases hde : decodeComp c.schema (List.take k (encodeComp v)) with
    | error e => simp [deserialize_component, hde, Except.isOk, Except.toBool]
    | ok p => exact absurd hde (hterr p)
  · cases hde : decodeComp c.schema (List.take k (encodeComp v)) with
    | error e => simp [deserialize_mapped_component, hde, Except.isOk, Except.toBool]
    | ok p => exact absurd hde (hterr p)

/-- Witness for C4: a one-byte truncation of the encoding of a u64
component. -/
theorem deserialize_error_is_value_and_leaves_entity_witness :
    matchesSchema [FieldVal.u64 300] (CompType.mk 0 [FieldTy.u64]).schema =
      true ∧
    1 < (encodeComp [FieldVal.u64 300]).length ∧
    (deserialize_component (CompType.mk 0 [FieldTy.u64]) (fun _ => none) id
      (List.take 1 (encodeComp [FieldVal.u64 300]))).2.isOk = false ∧
    (deserialize_mapped_component (CompType.mk 0 [FieldTy.u64])
      (fun _ => none) id
      (List.take 1 (encodeComp [FieldVal.u64 300]))).2.isOk = false :=
  ⟨by decide, by decide,
   (deserialize_error_is_value_and_leaves_entity
      (CompType.mk 0 [FieldTy.u64]) (fun _ => none) id []
      [FieldVal.u64 300] 1 (by decide) (by decide)).2.2⟩

/-- Claim C6: the entity-mapped deserialize decodes the value, applies
the entity-mapping capability to each embedded entity reference in
declared order, and only then installs the component; for a value with
one embedded reference to remote entity R and a mapper sending R to L,
the installed component's reference field equals L. -/
theorem mapped_deserialize_maps_before_insert (c : CompType)
    (es : EntityState) (m : Nat → Nat) (v : List FieldVal) (R L : Nat)
    (hv : matchesSchema v c.schema = true) (hm : m R = L) :
    deserialize_mapped_component c es m (serialize_component v []) =
      (insertComp c.label (map_entities m v) es, .ok []) ∧
    insertComp c.label (map_entities m v) es c.label =
      some (map_entities m v) ∧
    (v = [FieldVal.entity R] → map_entities m v = [FieldVal.entity L]) := by
  have hdec : decodeComp c.schema (encodeComp v) = .ok (v, []) := by
    have := decodeComp_encodeComp v c.schema hv []
    simpa using this
  refine ⟨?_, ?_, ?_⟩
  · simp [deserialize_mapped_component, serialize_component, hdec]
  · simp [insertComp]
  · intro hveq
    subst hveq
    simp [map_entities, hm]

/-- Witness for C6: one entity-reference field, mapper sending 5 to 6. -/
theorem mapped_deserialize_maps_before_insert_witness :
    matchesSchema [FieldVal.entity 5] (CompType.mk 2 [FieldTy.entity]).schema =
      true ∧
    (fun e => e + 1) 5 = 6 ∧
    deserialize_mapped_component (CompType.mk 2 [FieldTy.entity])
        (fun _ => none) (fun e => e + 1)
        (serialize_component [FieldVal.entity 5] []) =
      (insertComp 2 (map_entities (fun e => e + 1) [FieldVal.entity 5])
        (fun _ => none), .ok []) ∧
    map_entities (fun e => e + 1) [FieldVal.entity 5] = [FieldVal.entity 6] := by
  have h := mapped_deserialize_maps_before_insert
    (CompType.mk 2 [FieldTy.entity]) (fun _ => none) (fun e => e + 1)
    [FieldVal.entity 5] 5 6 (by decide) rfl
  exact ⟨by decide, rfl, h.1, h.2.2 rfl⟩

/-- Claim C8: the registered remove function is idempotent: removing
the same component type twice from an entity equals removing it once,
and removing an absent component is a no-op (the entity is returned
unchanged, with no error channel at all). -/
theorem remove_component_idempotent (c : Nat) (es : EntityState) :
    remove_component c (remove_component c es) = remove_component c es ∧
    (es c = none → remove_component c es = es) := by
  constructor
  · funext l
    by_cases h : l = c <;> simp [remove_component, h]
  · intro hes
    funext l
    by_cases h : l = c
    · subst h
      simp [remove_component, hes]
    · simp [remove_component, h]

/-- Witness for C8 on the empty entity. -/
theorem remove_component_idempotent_witness :
    remove_component 0 (remove_component 0 (fun _ => none)) =
      remove_component 0 (fun _ => none) ∧
    remove_component 0 (fun _ => none) = (fun _ => none : EntityState) :=
  ⟨(remove_component_idempotent 0 (fun _ => none)).1,
   (remove_component_idempotent 0 (fun _ => none)).2 rfl⟩

/-- Claim C10: the default (unmapped) deserialize function is
independent of the entity-translation state: it produces the same
result for any two entity maps, since it never consults the map. -/
theorem deserialize_component_independent_of_entity_map (c : CompType)
    (es : EntityState) (m1 m2 : Nat → Nat) (cursor : List Nat) :
    deserialize_component c es m1 cursor =
      deserialize_component c es m2 cursor := rfl

end RepliconRules
